import Mathlib

/-!
Verification of the OASIS quorum calculator core.

Shallow embedding of the membership-status state machine, the meeting
lifecycle transitions, the attendance ledger and the quorum computation
of the quorum-calculator repository (Go sources under `pkg/models` and
the database schema).  Timestamps are modelled as natural numbers,
database tables as lists of rows, and each Go function as a pure Lean
function over an explicit database state.
-/

namespace OQC

/-- Member status of a user in a committee (`models.MemberStatus`):
`Member` = 0, `Voting` = 1, `NoneVoting` = 2 (persistent non-voter),
`NoMember` = 3. -/
inductive MemberStatus where
  | Member
  | Voting
  | NoneVoting
  | NoMember
deriving DecidableEq, Repr

/-- Meeting status (`models.MeetingStatus`): `OnHold` = 0, `Running` = 1,
`Concluded` = 2. -/
inductive MeetingStatus where
  | OnHold
  | Running
  | Concluded
deriving DecidableEq, Repr

/-- One entry of a user's status history in a committee
(`models.UserHistoryEntry`): the status applies since the given time. -/
structure UserHistoryEntry where
  since : Nat
  status : MemberStatus
deriving DecidableEq, Repr

/-- The index of the first entry whose `since` is not before `when`.
`UserHistory.Status` in the Go source locates this position with
`slices.BinarySearchFunc`; on a history that is sorted by `since`
(the documented invariant of `UserHistory`) the binary search returns
exactly this lower-bound index, which this linear scan computes. -/
def lowerBound (uh : List UserHistoryEntry) (when : Nat) : Nat :=
  match uh with
  | [] => 0
  | e :: rest => if e.since < when then lowerBound rest when + 1 else 0

/-- `UserHistory.Status` from the Go source: empty history yields
`NoMember`; otherwise binary-search for `when`; on an exact hit return
that entry's status; if the insertion point is the front return
`NoMember`; if it is the end return the last entry's status; otherwise
return the status of the entry just before the insertion point. -/
def statusAt (uh : List UserHistoryEntry) (when : Nat) : MemberStatus :=
  match uh with
  | [] => .NoMember
  | _ :: _ =>
    let idx := lowerBound uh when
    match uh[idx]? with
    | some e =>
      if e.since = when then e.status
      else if idx = 0 then .NoMember
      else
        match uh[idx - 1]? with
        | some p => p.status
        | none => .NoMember
    | none =>
      match uh.getLast? with
      | some l => l.status
      | none => .NoMember

/-- Modelled from the spec: "the status in effect at time T is that of
the latest entry with timestamp ≤ T, or `NoMember` if no such entry
exists".  For a history sorted by timestamp the latest such entry is the
last element of the `≤ T` filtered list. -/
def specStatusAt (uh : List UserHistoryEntry) (when : Nat) : MemberStatus :=
  match (uh.filter fun e => decide (e.since ≤ when)).getLast? with
  | some e => e.status
  | none => .NoMember

/-- A row of the `meetings` table (`models.Meeting`). -/
structure Meeting where
  id : Nat
  committeeID : Nat
  gathering : Bool
  status : MeetingStatus
  startTime : Nat
  stopTime : Nat
deriving DecidableEq, Repr

/-- A row of the `member_history` table: (nickname, committee, status,
since). -/
structure MemberHistoryRow where
  nickname : String
  committeeID : Nat
  status : MemberStatus
  since : Nat
deriving DecidableEq, Repr

/-- A row of the `attendees` table: (meeting, nickname, voting_allowed),
unique per (meeting, nickname). -/
structure AttendeeRow where
  meetingID : Nat
  nickname : String
  votingAllowed : Bool
deriving DecidableEq, Repr

/-- A row of the `attendees_changes` table: last-changed time of the
attendance record of (meeting, nickname), maintained by the insert /
update / delete triggers on `attendees`. -/
structure AttendeesChangeRow where
  meetingID : Nat
  nickname : String
  time : Nat
deriving DecidableEq, Repr

/-- A row of the `committee_roles` table: (nickname, committee, role id). -/
structure CommitteeRoleRow where
  nickname : String
  committeeID : Nat
  roleID : Nat
deriving DecidableEq, Repr

/-- A row of the `member_absent` table: an excused-absence interval of a
user in a committee. -/
structure AbsentRow where
  nickname : String
  committeeID : Nat
  startTime : Nat
  stopTime : Nat
deriving DecidableEq, Repr

/-- The database state: the tables the core logic reads and writes. -/
structure DB where
  meetings : List Meeting
  attendees : List AttendeeRow
  attendeesChanges : List AttendeesChangeRow
  memberHistory : List MemberHistoryRow
  committeeRoles : List CommitteeRoleRow
  memberAbsent : List AbsentRow
deriving DecidableEq, Repr

/-- The `member_history` rows of one (nickname, committee) pair, in table
order. -/
def historyRows (db : DB) (nick : String) (cid : Nat) : List MemberHistoryRow :=
  db.memberHistory.filter fun r => decide (r.nickname = nick ∧ r.committeeID = cid)

/-- The history of one (nickname, committee) pair as `LoadUsersHistoriesTx`
delivers it: the pair's `member_history` rows as (since, status) entries. -/
def userHistory (db : DB) (nick : String) (cid : Nat) : List UserHistoryEntry :=
  (historyRows db nick cid).map fun r => ⟨r.since, r.status⟩

/-- The entry with the maximal `since` among the rows (first such row on
ties, though `since` is unique per pair by the table's UNIQUE constraint);
`ORDER BY unixepoch(since) DESC LIMIT 1` of the source queries. -/
def latestRow (rows : List MemberHistoryRow) : Option MemberHistoryRow :=
  match rows with
  | [] => none
  | r :: rest =>
    match latestRow rest with
    | none => some r
    | some b => if r.since < b.since then some b else some r

/-- The live member status of a user in a committee as `loadUserTx` loads
it: the status of the newest `member_history` row, defaulting to `Member`
when the pair has no row at all. -/
def liveMemberStatus (db : DB) (nick : String) (cid : Nat) : MemberStatus :=
  match latestRow (historyRows db nick cid) with
  | some r => r.status
  | none => .Member

/-- `UserMemberStatusSinceTx`: the newest `member_history` row of the pair
with `since ≤ when`; `none` when the user was not in the committee at that
time. -/
def userMemberStatusSince (db : DB) (nick : String) (cid : Nat) (when : Nat) :
    Option MemberStatus :=
  (latestRow ((historyRows db nick cid).filter fun r => decide (r.since ≤ when))).map
    (·.status)

/-- Modelled from the spec: `IsUserExcusedFromMeetingTx` is not under
`src/` (only its call site in `ChangeMeetingStatus` is); the spec calls
these "excused absences" recorded per (user, committee) time interval in
the `member_absent` table, so the user counts as excused at `when` iff
some recorded interval of the pair contains `when`. -/
def isUserExcused (db : DB) (nick : String) (cid : Nat) (when : Nat) : Bool :=
  db.memberAbsent.any fun r =>
    decide (r.nickname = nick ∧ r.committeeID = cid ∧
      r.startTime ≤ when ∧ when ≤ r.stopTime)

/-- `MeetingAttendeesTx` restricted to one nickname: `some voting` when the
user has an `attendees` row of the meeting, `none` otherwise. -/
def meetingAttendees (db : DB) (mid : Nat) (nick : String) : Option Bool :=
  (db.attendees.find? fun a => decide (a.meetingID = mid ∧ a.nickname = nick)).map
    (·.votingAllowed)

/-- `HasCommitteeRunningMeetingTx`: the committee has some meeting with
status `Running`. -/
def hasCommitteeRunningMeeting (db : DB) (cid : Nat) : Bool :=
  db.meetings.any fun m => decide (m.committeeID = cid ∧ m.status = .Running)

/-- `HasConcludedMeetingNewerThanTx`: some other meeting of the same
committee with a strictly later start time is already `Concluded`. -/
def hasConcludedMeetingNewerThan (db : DB) (mid : Nat) : Bool :=
  db.meetings.any fun m1 => decide (m1.id = mid) &&
    db.meetings.any fun m2 =>
      decide (m1.committeeID = m2.committeeID ∧ ¬m1.id = m2.id ∧
        m2.status = .Concluded ∧ m1.startTime < m2.startTime)

/-- `IsGatheringMeetingTx`: the `gathering` flag of the meeting with the
given id (`none` models the query error when the id does not exist). -/
def isGatheringMeeting (db : DB) (mid : Nat) : Option Bool :=
  (db.meetings.find? fun m => decide (m.id = mid)).map (·.gathering)

/-- `LoadMeetingTx`: the meeting with the given id in the given committee. -/
def loadMeeting (db : DB) (mid cid : Nat) : Option Meeting :=
  db.meetings.find? fun m => decide (m.id = mid ∧ m.committeeID = cid)

/-- The meeting with the maximal start time of a candidate list (first one
on ties); the `ORDER BY unixepoch(start_time) DESC LIMIT 1` of
`PreviousMeetingTx`. -/
def maxByStart (cands : List Meeting) : Option Meeting :=
  match cands with
  | [] => none
  | m :: rest =>
    match maxByStart rest with
    | none => some m
    | some b => if m.startTime < b.startTime then some b else some m

/-- Candidate filter of `PreviousMeetingTx`: same committee as `m1`, not a
gathering, concluded, strictly earlier start time. -/
def prevCandidate (m1 m2 : Meeting) : Bool :=
  decide (m2.committeeID = m1.committeeID ∧ m2.gathering = false ∧
    m2.status = .Concluded ∧ m2.startTime < m1.startTime)

/-- `PreviousMeetingTx`: the id of the latest concluded non-gathering
meeting of the same committee with a strictly earlier start time; `none`
when there is no such meeting (or the given id does not exist). -/
def previousMeetingId (db : DB) (mid : Nat) : Option Nat :=
  match db.meetings.find? fun m => decide (m.id = mid) with
  | none => none
  | some m1 => (maxByStart (db.meetings.filter (prevCandidate m1))).map (·.id)

/-- The distinct nicknames holding some role in the committee
(`LoadCommitteeUsersTx`). -/
def committeeUserNicknames (db : DB) (cid : Nat) : List String :=
  ((db.committeeRoles.filter fun r => decide (r.committeeID = cid)).map
    (·.nickname)).dedup

/-- The per-user decision of the promotion/demotion engine: the body of
the user loop of `ChangeMeetingStatus`.  `histTime` is the stop time of
the meeting the engine loads through `loadPrevMeeting`.  Yields
`some .Member` when the user is put on the downgrade list, `some .Voting`
when put on the upgrade list, `none` otherwise. -/
def userDelta (db : DB) (cid mid prevMid : Nat) (histTime : Nat)
    (nick : String) : Option MemberStatus :=
  -- `ms == nil`: the user has no membership in this committee.
  if ¬db.committeeRoles.any fun r =>
      decide (r.nickname = nick ∧ r.committeeID = cid) then none
  else if liveMemberStatus db nick cid = .NoneVoting then none
  else
    match meetingAttendees db mid nick with
    | none =>
      -- user was absent in the current meeting
      if liveMemberStatus db nick cid = .Voting then
        match meetingAttendees db prevMid nick with
        | none =>
          if isUserExcused db nick cid histTime then none
          else
            match userMemberStatusSince db nick cid histTime with
            | none => none
            | some s => if s = .Voting then some .Member else none
        | some _ => none
      else none
    | some votingCurr =>
      -- user was in the current meeting
      if votingCurr = false ∧ liveMemberStatus db nick cid = .Member then
        match meetingAttendees db prevMid nick with
        | some votingPrev =>
          if votingPrev then none
          else
            match userMemberStatusSince db nick cid histTime with
            | some s => if s = .Member then some .Voting else none
            | none => none
        | none => none
      else none

/-- `UpdateUserCommitteeStatusTx`: for each (nickname, status) insert a new
`member_history` row with `since := since` unless the pair's newest row
already has that status. -/
def updateUserCommitteeStatus (db : DB) (changes : List (String × MemberStatus))
    (cid : Nat) (since : Nat) : DB :=
  match changes with
  | [] => db
  | p :: rest =>
    updateUserCommitteeStatus
      (match latestRow (historyRows db p.1 cid) with
        | some e =>
          if e.status = p.2 then db
          else { db with memberHistory :=
            db.memberHistory ++ [⟨p.1, cid, p.2, since⟩] }
        | none => { db with memberHistory :=
            db.memberHistory ++ [⟨p.1, cid, p.2, since⟩] })
      rest cid since

/-- The `onSuccess` callback of `ChangeMeetingStatus` for a conclusion:
skip gatherings, need a previous concluded non-gathering meeting, then run
the per-user engine and store the collected upgrades and downgrades.
`none` models an internal query error (meeting id not found).  Note that
the source's `loadPrevMeeting` loads the meeting `meetingID` — the current
meeting — so `histTime` below is the current meeting's stop time. -/
def onSuccessConclude (db : DB) (mid cid : Nat) (timer : Nat) : Option DB :=
  match isGatheringMeeting db mid with
  | none => none
  | some true => some db
  | some false =>
    match previousMeetingId db mid with
    | none => some db
    | some prevMid =>
      match loadMeeting db mid cid with
      | none => none
      | some prevMeeting =>
        some (updateUserCommitteeStatus db
          (((committeeUserNicknames db cid).filter fun n =>
              decide (userDelta db cid mid prevMid prevMeeting.stopTime n =
                some .Voting)).map (fun n => (n, .Voting)) ++
            ((committeeUserNicknames db cid).filter fun n =>
              decide (userDelta db cid mid prevMid prevMeeting.stopTime n =
                some .Member)).map (fun n => (n, .Member)))
          cid timer)

/-- Error outcomes of `ChangeMeetingStatus`. -/
inductive MeetingErr where
  | AlreadyRunning
  | NewerConcluded
  | InternalError
deriving DecidableEq, Repr

/-- The conditional write of `UpdateMeetingStatus`:
`UPDATE meetings SET status = ? WHERE id = ? AND committees_id = ? AND
status <> 2`; returns the updated table and the number of affected rows. -/
def updateStatusWrite (db : DB) (mid cid : Nat) (st : MeetingStatus) : DB × Nat :=
  ({ db with meetings := db.meetings.map fun m =>
      if m.id = mid ∧ m.committeeID = cid ∧ ¬m.status = .Concluded then
        { m with status := st }
      else m },
    db.meetings.countP fun m =>
      decide (m.id = mid ∧ m.committeeID = cid ∧ ¬m.status = .Concluded))

/-- `ChangeMeetingStatus`, instrumented with a flag telling whether the
`onSuccess` side effect ran (it runs exactly when the conditional write
affected one row).  An error result models the rolled-back transaction:
the database is unchanged. -/
def changeMeetingStatusT (db : DB) (mid cid : Nat) (st : MeetingStatus)
    (timer : Nat) : Except MeetingErr (DB × Bool) :=
  if st = .Running ∧ hasCommitteeRunningMeeting db cid then
    .error .AlreadyRunning
  else if st = .Concluded ∧ hasConcludedMeetingNewerThan db mid then
    .error .NewerConcluded
  else
    if (updateStatusWrite db mid cid st).2 = 1 then
      if st = .Concluded then
        match onSuccessConclude (updateStatusWrite db mid cid st).1 mid cid timer with
        | some db2 => .ok (db2, true)
        | none => .error .InternalError
      else .ok ((updateStatusWrite db mid cid st).1, true)
    else .ok ((updateStatusWrite db mid cid st).1, false)

/-- `ChangeMeetingStatus` as exposed to callers. -/
def changeMeetingStatus (db : DB) (mid cid : Nat) (st : MeetingStatus)
    (timer : Nat) : Except MeetingErr DB :=
  (changeMeetingStatusT db mid cid st timer).map (·.1)

/-- `DeleteMeetingsByID`:
`DELETE FROM meetings WHERE id = ? AND committees_id = ? AND status <> 2`
for every id of the list. -/
def deleteMeetingsByID (db : DB) (cid : Nat) (ids : List Nat) : DB :=
  { db with meetings := db.meetings.filter fun m =>
      !decide (m.id ∈ ids ∧ m.committeeID = cid ∧ ¬m.status = .Concluded) }

/-- The last-changed time of an attendance record, from the
`attendees_changes` table. -/
def changeTime (db : DB) (mid : Nat) (nick : String) : Option Nat :=
  (db.attendeesChanges.find? fun c =>
    decide (c.meetingID = mid ∧ c.nickname = nick)).map (·.time)

/-- The trigger on the `attendees` table: upsert the last-changed time of
(meeting, nickname) to the current time. -/
def setChangeTime (db : DB) (mid : Nat) (nick : String) (now : Nat) : DB :=
  if db.attendeesChanges.any fun c =>
      decide (c.meetingID = mid ∧ c.nickname = nick) then
    { db with attendeesChanges := db.attendeesChanges.map fun c =>
        if c.meetingID = mid ∧ c.nickname = nick then { c with time := now }
        else c }
  else
    { db with attendeesChanges := db.attendeesChanges ++ [⟨mid, nick, now⟩] }

/-- The `INSERT ... ON CONFLICT DO UPDATE SET voting_allowed` of `Attend`,
followed by the change trigger. -/
def applyAttend (db : DB) (mid : Nat) (nick : String) (voting : Bool)
    (now : Nat) : DB :=
  let db1 :=
    if db.attendees.any fun a =>
        decide (a.meetingID = mid ∧ a.nickname = nick) then
      { db with attendees := db.attendees.map fun a =>
          if a.meetingID = mid ∧ a.nickname = nick then
            { a with votingAllowed := voting }
          else a }
    else { db with attendees := db.attendees ++ [⟨mid, nick, voting⟩] }
  setChangeTime db1 mid nick now

/-- `Attend` for one user: skip the write when the record's last-changed
time is strictly after `accept` (detected race), otherwise upsert the
attendance row. -/
def attendOne (db : DB) (mid : Nat) (nick : String) (voting : Bool)
    (accept now : Nat) : DB :=
  match changeTime db mid nick with
  | some t => if accept < t then db else applyAttend db mid nick voting now
  | none => applyAttend db mid nick voting now

/-- The `DELETE` of `Unattend`, followed by the delete trigger, which only
fires when a row was actually removed. -/
def applyUnattend (db : DB) (mid : Nat) (nick : String) (now : Nat) : DB :=
  if db.attendees.any fun a =>
      decide (a.meetingID = mid ∧ a.nickname = nick) then
    setChangeTime
      { db with attendees := db.attendees.filter fun a =>
          !decide (a.meetingID = mid ∧ a.nickname = nick) }
      mid nick now
  else db

/-- `Unattend` for one user: the same race check as `Attend`, then delete
the attendance row. -/
def unattendOne (db : DB) (mid : Nat) (nick : String) (accept now : Nat) : DB :=
  match changeTime db mid nick with
  | some t => if accept < t then db else applyUnattend db mid nick now
  | none => applyUnattend db mid nick now

/-- The quorum of a meeting (`models.Quorum`). -/
structure Quorum where
  Total : Nat
  Voting : Nat
  AttendingVoting : Nat
  NonVoting : Nat
  Member : Nat
deriving DecidableEq, Repr

/-- `Quorum.Number`: the number of voting members needed to reach the
quorum, `1 + Voting/2`. -/
def Quorum.Number (q : Quorum) : Nat := 1 + q.Voting / 2

/-- `Quorum.Reached`: the quorum is reached when the attending voting
members are at least the quorum number. -/
def Quorum.Reached (q : Quorum) : Bool := decide (q.Number ≤ q.AttendingVoting)

/-- The quorum computation of `LoadMeetingsOverview`: over the relevant
nicknames count those whose history status at the meeting's stop time is
`Voting`, and among them those who attended. -/
def computeQuorum (nicks : List String)
    (histories : String → List UserHistoryEntry)
    (attended : String → Bool) (stopTime : Nat) : Quorum :=
  let voting := nicks.countP fun n =>
    decide (statusAt (histories n) stopTime = .Voting)
  let attending := nicks.countP fun n =>
    decide (statusAt (histories n) stopTime = .Voting) && attended n
  { Total := 0, Voting := voting, AttendingVoting := attending,
    NonVoting := 0, Member := 0 }

/-- The last entry of a history (sorted by `since`) whose timestamp is at
most `when`: proof-internal reference point relating the binary-search
lookup `statusAt` to the spec's "latest entry with timestamp ≤ T". -/
def lastLE (uh : List UserHistoryEntry) (when : Nat) : Option UserHistoryEntry :=
  match uh with
  | [] => none
  | e :: rest => if e.since ≤ when then some ((lastLE rest when).getD e) else none

/-- Concrete state for the demotion scenario: committee 1 with four voting
members, meeting 1 (start 10, stop 20) and meeting 2 (start 30, stop 40)
both on hold, `u4` absent from both, the others attending both. -/
def dbScen : DB where
  meetings := [⟨1, 1, false, .OnHold, 10, 20⟩, ⟨2, 1, false, .OnHold, 30, 40⟩]
  attendees := [⟨1, "u1", true⟩, ⟨1, "u2", true⟩, ⟨1, "u3", true⟩,
                ⟨2, "u1", true⟩, ⟨2, "u2", true⟩, ⟨2, "u3", true⟩]
  attendeesChanges := []
  memberHistory := [⟨"u1", 1, .Voting, 0⟩, ⟨"u2", 1, .Voting, 0⟩,
                    ⟨"u3", 1, .Voting, 0⟩, ⟨"u4", 1, .Voting, 0⟩]
  committeeRoles := [⟨"u1", 1, 1⟩, ⟨"u2", 1, 1⟩, ⟨"u3", 1, 1⟩, ⟨"u4", 1, 1⟩]
  memberAbsent := []

/-- `dbScen` after meeting 1 was concluded: only the meeting status
changed, nobody was demoted. -/
def dbScen1 : DB :=
  { dbScen with meetings :=
      [⟨1, 1, false, .Concluded, 10, 20⟩, ⟨2, 1, false, .OnHold, 30, 40⟩] }

/-- `dbScen1` after meeting 2 was concluded: `u4`, absent a second
consecutive time, is demoted to `Member` at time 40. -/
def dbScen2 : DB :=
  { dbScen1 with
    meetings := [⟨1, 1, false, .Concluded, 10, 20⟩, ⟨2, 1, false, .Concluded, 30, 40⟩]
    memberHistory := dbScen1.memberHistory ++ [⟨"u4", 1, .Member, 40⟩] }

/-- Concrete state exhibiting the history-lookup defect of the promotion
rule: `alice` joined committee 1 as `Member` at time 25, which is after
meeting 1 ended (stop 20) and before meeting 2 ends (stop 40); she
attended both meetings without voting rights. -/
def dbPromo : DB where
  meetings := [⟨1, 1, false, .Concluded, 10, 20⟩, ⟨2, 1, false, .OnHold, 30, 40⟩]
  attendees := [⟨1, "alice", false⟩, ⟨2, "alice", false⟩]
  attendeesChanges := []
  memberHistory := [⟨"alice", 1, .Member, 25⟩]
  committeeRoles := [⟨"alice", 1, 1⟩]
  memberAbsent := []

/-- `dbPromo` after meeting 2 was concluded: `alice` was promoted. -/
def dbPromo2 : DB :=
  { dbPromo with
    meetings := [⟨1, 1, false, .Concluded, 10, 20⟩, ⟨2, 1, false, .Concluded, 30, 40⟩]
    memberHistory := dbPromo.memberHistory ++ [⟨"alice", 1, .Voting, 40⟩] }

/-- Concrete state with a persistent non-voter: `bob` is `NoneVoting` in
committee 1 and attended neither meeting. -/
def dbNV : DB where
  meetings := [⟨1, 1, false, .Concluded, 10, 20⟩, ⟨2, 1, false, .OnHold, 30, 40⟩]
  attendees := []
  attendeesChanges := []
  memberHistory := [⟨"bob", 1, .NoneVoting, 0⟩]
  committeeRoles := [⟨"bob", 1, 1⟩]
  memberAbsent := []

/-- `dbNV` after meeting 2 was concluded: the persistent non-voter `bob`
is untouched. -/
def dbNV2 : DB :=
  { dbNV with meetings :=
      [⟨1, 1, false, .Concluded, 10, 20⟩, ⟨2, 1, false, .Concluded, 30, 40⟩] }

/-- A committee that already has a running meeting. -/
def dbRun : DB where
  meetings := [⟨1, 1, false, .Running, 10, 20⟩, ⟨2, 1, false, .OnHold, 30, 40⟩]
  attendees := []
  attendeesChanges := []
  memberHistory := []
  committeeRoles := []
  memberAbsent := []

/-- A committee where a newer meeting is already concluded while an older
one is still on hold. -/
def dbNewer : DB where
  meetings := [⟨1, 1, false, .OnHold, 10, 20⟩, ⟨2, 1, false, .Concluded, 30, 40⟩]
  attendees := []
  attendeesChanges := []
  memberHistory := []
  committeeRoles := []
  memberAbsent := []

/-- A user holding a committee role but having no membership-history
entry at all. -/
def dbNoHist : DB where
  meetings := []
  attendees := []
  attendeesChanges := []
  memberHistory := []
  committeeRoles := [⟨"carol", 1, 1⟩]
  memberAbsent := []

/-- A small attendance state: `bob` is recorded for meeting 5 with a
non-voting flag, last changed at time 10. -/
def dbAtt : DB where
  meetings := []
  attendees := [⟨5, "bob", false⟩]
  attendeesChanges := [⟨5, "bob", 10⟩]
  memberHistory := []
  committeeRoles := []
  memberAbsent := []

/-! ## Helper lemmas about the history lookup -/

theorem getLast?_cons_eq {α : Type} (a : α) (l : List α) :
    (a :: l).getLast? = some (l.getLast?.getD a) := by
  induction l generalizing a with
  | nil => rfl
  | cons b l ih => rw [List.getLast?_cons_cons, ih b]; simp

theorem lastLE_eq_none (uh : List UserHistoryEntry) (w : Nat)
    (h : ∀ x ∈ uh, w < x.since) : lastLE uh w = none := by
  induction uh with
  | nil => rfl
  | cons e rest ih =>
    have he : ¬e.since ≤ w := Nat.not_le.mpr (h e (by simp))
    simp [lastLE, he]

theorem lastLE_mem_le (uh : List UserHistoryEntry) (w : Nat)
    (e : UserHistoryEntry) (h : lastLE uh w = some e) : e ∈ uh ∧ e.since ≤ w := by
  induction uh with
  | nil => simp [lastLE] at h
  | cons f rest ih =>
    by_cases hf : f.since ≤ w
    · simp only [lastLE, if_pos hf, Option.some.injEq] at h
      cases hrest : lastLE rest w with
      | some x =>
        rw [hrest] at h
        simp only [Option.getD_some] at h
        subst h
        exact ⟨List.mem_cons_of_mem _ (ih hrest).1, (ih hrest).2⟩
      | none =>
        rw [hrest] at h
        simp only [Option.getD_none] at h
        subst h
        exact ⟨List.mem_cons_self _ _, hf⟩
    · simp [lastLE, hf] at h

theorem lastLE_congr (uh : List UserHistoryEntry) (t1 t2 : Nat) (h12 : t1 ≤ t2)
    (h : ∀ e ∈ uh, e.since ≤ t1 ∨ t2 < e.since) : lastLE uh t1 = lastLE uh t2 := by
  induction uh with
  | nil => rfl
  | cons f rest ih =>
    have ih' := ih fun e he => h e (List.mem_cons_of_mem _ he)
    rcases h f (List.mem_cons_self _ _) with hf | hf
    · simp [lastLE, hf, Nat.le_trans hf h12, ih']
    · have h1 : ¬f.since ≤ t1 := Nat.not_le.mpr (Nat.lt_of_le_of_lt h12 hf)
      have h2 : ¬f.since ≤ t2 := Nat.not_le.mpr hf
      simp [lastLE, h1, h2]

theorem statusAt_cons_cons (e f : UserHistoryEntry) (rest : List UserHistoryEntry)
    (w : Nat) (he : e.since < w) (hf : f.since ≤ w) :
    statusAt (e :: f :: rest) w = statusAt (f :: rest) w := by
  by_cases hfw : f.since < w
  · simp only [statusAt, lowerBound, if_pos he, if_pos hfw]
    rw [List.getElem?_cons_succ]
    cases hj : (f :: rest)[lowerBound rest w + 1]? with
    | some g =>
      by_cases hgw : g.since = w
      · simp [hgw]
      · have hne : ¬lowerBound rest w + 1 + 1 = 0 := by omega
        have hne' : ¬lowerBound rest w + 1 = 0 := by omega
        simp only [if_neg hgw, if_neg hne, if_neg hne']
        have hs1 : lowerBound rest w + 1 + 1 - 1 = lowerBound rest w + 1 := by omega
        have hs2 : lowerBound rest w + 1 - 1 = lowerBound rest w := by omega
        rw [hs1, hs2, List.getElem?_cons_succ]
    | none =>
      rw [List.getLast?_cons_cons]
  · have hfw' : f.since = w := Nat.le_antisymm hf (Nat.not_lt.mp hfw)
    simp only [statusAt, lowerBound, if_pos he, if_neg hfw]
    rw [List.getElem?_cons_succ, List.getElem?_cons_zero, List.getElem?_cons_zero]
    simp [hfw']

theorem statusAt_eq_lastLE (uh : List UserHistoryEntry)
    (hs : List.Pairwise (fun a b => a.since < b.since) uh) (w : Nat) :
    statusAt uh w =
      match lastLE uh w with
      | some e => e.status
      | none => .NoMember := by
  induction uh with
  | nil => rfl
  | cons e rest ih =>
    rw [List.pairwise_cons] at hs
    rcases Nat.lt_trichotomy e.since w with hew | hew | hew
    · -- the head is strictly before the query time
      cases rest with
      | nil =>
        simp only [lastLE, if_pos (Nat.le_of_lt hew), statusAt, lowerBound,
          if_pos hew]
        rfl
      | cons f rest' =>
        by_cases hf : f.since ≤ w
        · rw [statusAt_cons_cons e f rest' w hew hf, ih hs.2]
          simp only [lastLE, if_pos (Nat.le_of_lt hew), if_pos hf]
          simp
        · -- the next entry is already after the query time
          have hlf : lastLE (f :: rest') w = none := by simp [lastLE, hf]
          simp only [lastLE, if_pos (Nat.le_of_lt hew), hlf, Option.getD_none]
          have hfw : ¬f.since < w := fun hc => hf (Nat.le_of_lt hc)
          have hfe : ¬f.since = w := fun hc => hf (Nat.le_of_eq hc)
          have hew' : ¬e.since = w := Nat.ne_of_lt hew
          simp only [statusAt, lowerBound, if_pos hew, if_neg hfw]
          rw [List.getElem?_cons_succ, List.getElem?_cons_zero]
          simp [hfe, hew', hf]
    · -- exact hit on the head
      have h1 : ¬e.since < w := by omega
      have hrest : lastLE rest w = none :=
        lastLE_eq_none rest w fun x hx => hew ▸ hs.1 x hx
      simp only [statusAt, lowerBound, if_neg h1, List.getElem?_cons_zero,
        lastLE, if_pos (Nat.le_of_eq hew), hrest, Option.getD_none]
      simp [hew]
    · -- the whole history is after the query time
      have h1 : ¬e.since < w := by omega
      have h2 : ¬e.since = w := by omega
      have h3 : ¬e.since ≤ w := by omega
      simp only [statusAt, lowerBound, if_neg h1, List.getElem?_cons_zero,
        lastLE, if_neg h3]
      simp [h2]

theorem lastLE_eq_filter_getLast (uh : List UserHistoryEntry)
    (hs : List.Pairwise (fun a b => a.since < b.since) uh) (w : Nat) :
    lastLE uh w = (uh.filter fun e => decide (e.since ≤ w)).getLast? := by
  induction uh with
  | nil => rfl
  | cons f rest ih =>
    rw [List.pairwise_cons] at hs
    by_cases hf : f.since ≤ w
    · rw [List.filter_cons_of_pos (by simpa using hf), getLast?_cons_eq]
      simp only [lastLE, if_pos hf, ih hs.2]
    · have : (rest.filter fun e => decide (e.since ≤ w)) = [] := by
        rw [List.filter_eq_nil_iff]
        intro a ha
        have := hs.1 a ha
        simp only [decide_eq_true_eq]
        omega
      rw [List.filter_cons_of_neg (by simpa using hf), this]
      simp [lastLE, hf]

/-! ## Claim theorems -/

/-- Claim C3: For every (user, committee) history sorted by timestamp and
every query time `T`, the binary-search lookup `statusAt` returns the
status of the latest entry with timestamp ≤ `T` (an entry whose timestamp
equals `T` included) — the spec-side `specStatusAt` — and `NoMember` when
no entry at or before `T` exists (in particular on the empty history);
consequently it never returns a status recorded later than `T`, and it is
a step function of `T` that changes only at recorded entry timestamps. -/
theorem statusAt_latest_entry (uh : List UserHistoryEntry)
    (hs : List.Pairwise (fun a b => a.since < b.since) uh) (T : Nat) :
    statusAt uh T = specStatusAt uh T ∧
    ((∀ e ∈ uh, T < e.since) → statusAt uh T = .NoMember) ∧
    (statusAt uh T = .NoMember ∨
      ∃ e ∈ uh, e.since ≤ T ∧ statusAt uh T = e.status) ∧
    (∀ T2, T ≤ T2 → (∀ e ∈ uh, e.since ≤ T ∨ T2 < e.since) →
      statusAt uh T = statusAt uh T2) := by
  have key := statusAt_eq_lastLE uh hs
  refine ⟨?_, ?_, ?_, ?_⟩
  · rw [key T]
    simp only [specStatusAt]
    rw [← lastLE_eq_filter_getLast uh hs T]
  · intro h
    rw [key T, lastLE_eq_none uh T h]
  · rw [key T]
    cases hl : lastLE uh T with
    | none => exact Or.inl rfl
    | some e =>
      rcases lastLE_mem_le uh T e hl with ⟨hmem, hle⟩
      exact Or.inr ⟨e, hmem, hle, rfl⟩
  · intro T2 h12 h
    rw [key T, key T2, lastLE_congr uh T T2 h12 h]

/-- Witness for C3 at a concrete two-entry history. -/
theorem statusAt_latest_entry_witness :
    statusAt [⟨3, .Voting⟩, ⟨7, .Member⟩] 5 =
      specStatusAt [⟨3, .Voting⟩, ⟨7, .Member⟩] 5 ∧
    statusAt [⟨3, .Voting⟩, ⟨7, .Member⟩] 5 =
      statusAt [⟨3, .Voting⟩, ⟨7, .Member⟩] 6 :=
  ⟨(statusAt_latest_entry _ (by decide) 5).1,
   (statusAt_latest_entry _ (by decide) 5).2.2.2 6 (by decide) (by decide)⟩

/-- Claim C4: Quorum computation: the quorum number is
`floor(votingCount/2) + 1` where `votingCount` counts roster members whose
status at the meeting's stop time is `Voting`; the quorum is reached iff
the attending voting members reach that number; `votingCount = 1` gives
quorum number 1, and `votingCount = 0` gives quorum number 1 so the
quorum is never reached.  (The computation is a pure Lean function of its
inputs, as the Go original is a side-effect-free function of its row
counts.) -/
theorem quorum_correct (nicks : List String)
    (histories : String → List UserHistoryEntry)
    (attended : String → Bool) (stop : Nat) :
    (computeQuorum nicks histories attended stop).Number =
      (computeQuorum nicks histories attended stop).Voting / 2 + 1 ∧
    ((computeQuorum nicks histories attended stop).Reached = true ↔
      (computeQuorum nicks histories attended stop).Number ≤
        (computeQuorum nicks histories attended stop).AttendingVoting) ∧
    (computeQuorum nicks histories attended stop).AttendingVoting ≤
      (computeQuorum nicks histories attended stop).Voting ∧
    ((computeQuorum nicks histories attended stop).Voting = 1 →
      (computeQuorum nicks histories attended stop).Number = 1) ∧
    ((computeQuorum nicks histories attended stop).Voting = 0 →
      (computeQuorum nicks histories attended stop).Number = 1 ∧
      (computeQuorum nicks histories attended stop).Reached = false) := by
  have hmono : (computeQuorum nicks histories attended stop).AttendingVoting ≤
      (computeQuorum nicks histories attended stop).Voting := by
    simp only [computeQuorum]
    exact List.countP_mono_left fun n _ h => by
      simp only [Bool.and_eq_true] at h
      exact h.1
  refine ⟨Nat.add_comm 1 _, ?_, hmono, ?_, ?_⟩
  · simp [Quorum.Reached]
  · intro h
    simp [Quorum.Number, h]
  · intro h
    refine ⟨by simp [Quorum.Number, h], ?_⟩
    have : (computeQuorum nicks histories attended stop).AttendingVoting = 0 := by
      omega
    simp [Quorum.Reached, Quorum.Number, h, this]

/-- Witness for C4 at a concrete roster with no voting member. -/
theorem quorum_correct_witness :
    (computeQuorum ["a"] (fun _ => []) (fun _ => true) 0).Number = 1 ∧
    (computeQuorum ["a"] (fun _ => []) (fun _ => true) 0).Reached = false :=
  (quorum_correct ["a"] (fun _ => []) (fun _ => true) 0).2.2.2.2 (by decide)

/-- Claim C10: A user who holds a committee role but has no
membership-history entries is loaded with live status `Member` (the
lowest enum value) rather than `NoMember`, even though the history
lookup `statusAt` reports `NoMember` for every timestamp for the same
user. -/
theorem liveMemberStatus_default (db : DB) (nick : String) (cid : Nat)
    (hrole : db.committeeRoles.any
      (fun r => decide (r.nickname = nick ∧ r.committeeID = cid)) = true)
    (hhist : historyRows db nick cid = []) :
    liveMemberStatus db nick cid = .Member ∧
    ∀ t, statusAt (userHistory db nick cid) t = .NoMember := by
  constructor
  · simp [liveMemberStatus, hhist, latestRow]
  · intro t
    unfold userHistory
    rw [hhist]
    rfl

/-- Witness for C10 on a concrete user without history entries. -/
theorem liveMemberStatus_default_witness :
    liveMemberStatus dbNoHist "carol" 1 = .Member ∧
    statusAt (userHistory dbNoHist "carol" 1) 100 = .NoMember :=
  ⟨(liveMemberStatus_default dbNoHist "carol" 1 (by decide) (by decide)).1,
   (liveMemberStatus_default dbNoHist "carol" 1 (by decide) (by decide)).2 100⟩

/-! ## Helper lemmas about the attendance ledger -/

theorem attendees_setChangeTime (d : DB) (mid : Nat) (nick : String) (now : Nat) :
    (setChangeTime d mid nick now).attendees = d.attendees := by
  unfold setChangeTime
  split <;> rfl

theorem find?_map_pres {α : Type} (l : List α) (g : α → α) (p : α → Bool)
    (h : ∀ a, p (g a) = p a) : (l.map g).find? p = (l.find? p).map g := by
  induction l with
  | nil => rfl
  | cons a l ih =>
    rw [List.map_cons, List.find?_cons, List.find?_cons, h a]
    cases hpa : p a
    · simpa using ih
    · rfl

theorem meetingAttendees_applyAttend (d : DB) (mid : Nat) (nick : String)
    (v : Bool) (now : Nat) :
    meetingAttendees (applyAttend d mid nick v now) mid nick = some v := by
  have hatt : (applyAttend d mid nick v now).attendees =
      if d.attendees.any (fun a => decide (a.meetingID = mid ∧ a.nickname = nick)) then
        d.attendees.map (fun a =>
          if a.meetingID = mid ∧ a.nickname = nick then
            { a with votingAllowed := v }
          else a)
      else d.attendees ++ [⟨mid, nick, v⟩] := by
    unfold applyAttend
    split <;> simp_all [attendees_setChangeTime]
  unfold meetingAttendees
  rw [hatt]
  by_cases hex : d.attendees.any
      (fun a => decide (a.meetingID = mid ∧ a.nickname = nick)) = true
  · rw [if_pos hex]
    rw [find?_map_pres _ _ _ ?hpres]
    case hpres =>
      intro a
      by_cases hc : a.meetingID = mid ∧ a.nickname = nick <;> simp [hc]
    have hsome : (d.attendees.find? fun a =>
        decide (a.meetingID = mid ∧ a.nickname = nick)).isSome :=
      List.find?_isSome.mpr (List.any_eq_true.mp hex)
    obtain ⟨b0, hb0⟩ := Option.isSome_iff_exists.mp hsome
    rw [hb0]
    have hp := List.find?_some hb0
    simp only [decide_eq_true_eq] at hp
    simp [hp]
  · rw [if_neg hex]
    have hnone : d.attendees.find?
        (fun a => decide (a.meetingID = mid ∧ a.nickname = nick)) = none := by
      rw [List.find?_eq_none]
      intro x hx hpx
      exact hex (List.any_eq_true.mpr ⟨x, hx, hpx⟩)
    rw [List.find?_append, hnone]
    simp

theorem meetingAttendees_applyUnattend (d : DB) (mid : Nat) (nick : String)
    (now : Nat) :
    meetingAttendees (applyUnattend d mid nick now) mid nick = none := by
  unfold applyUnattend
  by_cases hex : d.attendees.any
      (fun a => decide (a.meetingID = mid ∧ a.nickname = nick)) = true
  · rw [if_pos hex]
    unfold meetingAttendees
    rw [attendees_setChangeTime]
    have : (d.attendees.filter (fun a =>
        !decide (a.meetingID = mid ∧ a.nickname = nick))).find?
          (fun a => decide (a.meetingID = mid ∧ a.nickname = nick)) = none := by
      rw [List.find?_eq_none]
      intro x hx
      have := (List.mem_filter.mp hx).2
      simp_all
      tauto
    simp [this]
    intro x hx h h2
    tauto
  · rw [if_neg hex]
    unfold meetingAttendees
    have : d.attendees.find?
        (fun a => decide (a.meetingID = mid ∧ a.nickname = nick)) = none := by
      rw [List.find?_eq_none]
      intro x hx hpx
      exact hex (List.any_eq_true.mpr ⟨x, hx, hpx⟩)
    simp [this]
    intro x hx h1 h2
    exact hex (List.any_eq_true.mpr ⟨x, hx, by simp [h1, h2]⟩)

/-- Claim C7: Attendance optimistic-concurrency check: if the (meeting,
user) record's last-changed timestamp is strictly after the supplied
accept time, both `Attend` and `Unattend` silently skip the write for
that user (the state is fully unchanged, so a subsequent read shows the
newer value); if the last-changed timestamp is at or before the accept
time, or no change record exists, the write is applied. -/
theorem attendance_race_check (db : DB) (mid : Nat) (nick : String)
    (voting : Bool) (accept now : Nat) :
    (∀ t, changeTime db mid nick = some t → accept < t →
      attendOne db mid nick voting accept now = db ∧
      unattendOne db mid nick accept now = db) ∧
    ((∀ t, changeTime db mid nick = some t → t ≤ accept) →
      meetingAttendees (attendOne db mid nick voting accept now) mid nick =
        some voting ∧
      meetingAttendees (unattendOne db mid nick accept now) mid nick = none) := by
  constructor
  · intro t ht hacc
    unfold attendOne unattendOne
    rw [ht]
    simp [hacc]
  · intro hle
    unfold attendOne unattendOne
    cases ht : changeTime db mid nick with
    | none =>
      exact ⟨meetingAttendees_applyAttend db mid nick voting now,
        meetingAttendees_applyUnattend db mid nick now⟩
    | some t =>
      have hnlt : ¬accept < t := Nat.not_lt.mpr (hle t ht)
      show meetingAttendees
          (if accept < t then db else applyAttend db mid nick voting now)
          mid nick = some voting ∧
        meetingAttendees
          (if accept < t then db else applyUnattend db mid nick now)
          mid nick = none
      rw [if_neg hnlt, if_neg hnlt]
      exact ⟨meetingAttendees_applyAttend db mid nick voting now,
        meetingAttendees_applyUnattend db mid nick now⟩

/-- Witness for C7: a stale accept time (9 < last change 10) leaves the
state unchanged, a fresh one applies the write. -/
theorem attendance_race_check_witness :
    attendOne dbAtt 5 "bob" true 9 12 = dbAtt ∧
    meetingAttendees (attendOne dbAtt 5 "bob" true 10 12) 5 "bob" = some true :=
  ⟨((attendance_race_check dbAtt 5 "bob" true 9 12).1 10 (by decide)
      (by decide)).1,
   ((attendance_race_check dbAtt 5 "bob" true 10 12).2 (by
      intro t ht
      have h10 : changeTime dbAtt 5 "bob" = some 10 := by decide
      rw [h10] at ht
      injection ht with h
      omega)).1⟩

/-! ## Helper lemmas about the meeting lifecycle and the engine -/

theorem maxByStart_ne_none (m : Meeting) (rest : List Meeting) :
    maxByStart (m :: rest) ≠ none := by
  simp only [maxByStart]
  cases maxByStart rest with
  | none => simp
  | some b =>
    dsimp only
    split <;> simp

theorem maxByStart_eq_none (l : List Meeting) (h : maxByStart l = none) :
    l = [] := by
  cases l with
  | nil => rfl
  | cons m rest => exact absurd h (maxByStart_ne_none m rest)

theorem maxByStart_mem_max (l : List Meeting) (m : Meeting)
    (h : maxByStart l = some m) :
    m ∈ l ∧ ∀ x ∈ l, x.startTime ≤ m.startTime := by
  induction l generalizing m with
  | nil => cases h
  | cons a rest ih =>
    simp only [maxByStart] at h
    cases hr : maxByStart rest with
    | none =>
      rw [hr] at h
      injection h with h1
      subst h1
      have hrest := maxByStart_eq_none rest hr
      subst hrest
      exact ⟨List.mem_cons_self _ _, by intro x hx; simp at hx; simp [hx]⟩
    | some b =>
      rw [hr] at h
      dsimp only at h
      obtain ⟨hbmem, hbmax⟩ := ih b hr
      by_cases hab : a.startTime < b.startTime
      · rw [if_pos hab] at h
        injection h with h1
        subst h1
        refine ⟨List.mem_cons_of_mem _ hbmem, ?_⟩
        intro x hx
        rcases List.mem_cons.mp hx with hxa | hxr
        · subst hxa; exact Nat.le_of_lt hab
        · exact hbmax x hxr
      · rw [if_neg hab] at h
        injection h with h1
        rw [← h1]
        have hba : b.startTime ≤ a.startTime := Nat.not_lt.mp hab
        refine ⟨List.mem_cons_self _ _, ?_⟩
        intro x hx
        rcases List.mem_cons.mp hx with hxa | hxr
        · subst hxa; exact Nat.le_refl _
        · exact Nat.le_trans (hbmax x hxr) hba

theorem isGatheringMeeting_updateStatusWrite (db : DB) (mid cid : Nat)
    (st : MeetingStatus) (x : Nat) :
    isGatheringMeeting (updateStatusWrite db mid cid st).1 x =
      isGatheringMeeting db x := by
  unfold isGatheringMeeting updateStatusWrite
  rw [find?_map_pres _ _ _ ?hp]
  case hp =>
    intro a
    by_cases hc : a.id = mid ∧ a.committeeID = cid ∧ ¬a.status = .Concluded <;>
      simp [hc]
  cases hf : db.meetings.find? (fun m => decide (m.id = x)) with
  | none => rfl
  | some a =>
    by_cases hc : a.id = mid ∧ a.committeeID = cid ∧ ¬a.status = .Concluded <;>
      simp [hc]

theorem prevCandidate_update_left (m1 x : Meeting) (mid cid : Nat)
    (st : MeetingStatus) :
    prevCandidate
      (if m1.id = mid ∧ m1.committeeID = cid ∧ ¬m1.status = .Concluded then
        { m1 with status := st }
      else m1) x = prevCandidate m1 x := by
  by_cases hc : m1.id = mid ∧ m1.committeeID = cid ∧ ¬m1.status = .Concluded <;>
    simp [prevCandidate, hc]

theorem previousMeetingId_updateStatusWrite_none (db : DB) (mid cid : Nat)
    (st : MeetingStatus)
    (hpair : List.Pairwise (fun a b : Meeting => a.id ≠ b.id) db.meetings)
    (h : previousMeetingId db mid = none) :
    previousMeetingId (updateStatusWrite db mid cid st).1 mid = none := by
  have hsymm : Symmetric fun a b : Meeting => a.id ≠ b.id := fun _ _ hab => hab.symm
  unfold previousMeetingId at h ⊢
  unfold updateStatusWrite
  rw [find?_map_pres _ _ _ ?hp]
  case hp =>
    intro a
    by_cases hc : a.id = mid ∧ a.committeeID = cid ∧ ¬a.status = .Concluded <;>
      simp [hc]
  cases hf : db.meetings.find? (fun m => decide (m.id = mid)) with
  | none => rfl
  | some m1 =>
    rw [hf] at h
    dsimp only at h
    have hmax : maxByStart (db.meetings.filter (prevCandidate m1)) = none := by
      cases hmb : maxByStart (db.meetings.filter (prevCandidate m1)) with
      | none => rfl
      | some b => rw [hmb] at h; cases h
    have hfilter := maxByStart_eq_none _ hmax
    have hnone : ∀ c ∈ db.meetings, ¬prevCandidate m1 c = true := by
      intro c hc hcc
      have hmemf : c ∈ db.meetings.filter (prevCandidate m1) :=
        List.mem_filter.mpr ⟨hc, hcc⟩
      rw [hfilter] at hmemf
      cases hmemf
    have hfilter2 : (db.meetings.map fun m =>
        if m.id = mid ∧ m.committeeID = cid ∧ ¬m.status = .Concluded then
          { m with status := st }
        else m).filter (prevCandidate
          (if m1.id = mid ∧ m1.committeeID = cid ∧ ¬m1.status = .Concluded then
            { m1 with status := st }
          else m1)) = [] := by
      rw [List.filter_eq_nil_iff]
      intro a ha
      obtain ⟨c, hc, rfl⟩ := List.mem_map.mp ha
      rw [prevCandidate_update_left]
      by_cases hcond : c.id = mid ∧ c.committeeID = cid ∧ ¬c.status = .Concluded
      · rw [if_pos hcond]
        by_cases hceq : c = m1
        · subst hceq
          simp [prevCandidate]
        · have hm1mem := List.mem_of_find?_eq_some hf
          have hm1id : m1.id = mid := by simpa using List.find?_some hf
          have hne := hpair.forall hsymm hc hm1mem hceq
          exact absurd (hcond.1.trans hm1id.symm) hne
      · rw [if_neg hcond]
        exact hnone c hc
    simp only [Option.map_some']
    rw [hfilter2]
    rfl

theorem uucs_meetings (changes : List (String × MemberStatus)) (d : DB)
    (cid t : Nat) :
    (updateUserCommitteeStatus d changes cid t).meetings = d.meetings := by
  induction changes generalizing d with
  | nil => rfl
  | cons p rest ih =>
    simp only [updateUserCommitteeStatus]
    cases latestRow (historyRows d p.1 cid) with
    | none =>
      dsimp only
      rw [ih]
    | some e =>
      dsimp only
      split <;> rw [ih]

theorem uucs_historyRows_frame (changes : List (String × MemberStatus)) (d : DB)
    (cid t : Nat) (nick : String) (cid' : Nat)
    (h : ∀ p ∈ changes, p.1 ≠ nick) :
    historyRows (updateUserCommitteeStatus d changes cid t) nick cid' =
      historyRows d nick cid' := by
  induction changes generalizing d with
  | nil => rfl
  | cons p rest ih =>
    have hp := h p (List.mem_cons_self _ _)
    have hrest := fun q hq => h q (List.mem_cons_of_mem _ hq)
    simp only [updateUserCommitteeStatus]
    cases latestRow (historyRows d p.1 cid) with
    | none =>
      dsimp only
      rw [ih _ hrest]
      unfold historyRows
      simp [List.filter_append, hp]
    | some e =>
      dsimp only
      by_cases he : e.status = p.2
      · rw [if_pos he]
        exact ih _ hrest
      · rw [if_neg he, ih _ hrest]
        unfold historyRows
        simp [List.filter_append, hp]

theorem onSuccess_meetings (d : DB) (mid cid timer : Nat) (d2 : DB)
    (h : onSuccessConclude d mid cid timer = some d2) : d2.meetings = d.meetings := by
  unfold onSuccessConclude at h
  split at h
  · cases h
  · injection h with h1
    subst h1
    rfl
  · split at h
    · injection h with h1
      subst h1
      rfl
    · split at h
      · cases h
      · injection h with h1
        subst h1
        exact uucs_meetings _ _ _ _

theorem changeT_ok_inv (db : DB) (mid cid : Nat) (st : MeetingStatus)
    (timer : Nat) (db' : DB) (ran : Bool)
    (h : changeMeetingStatusT db mid cid st timer = .ok (db', ran)) :
    (ran = true ↔ (db.meetings.countP fun m =>
      decide (m.id = mid ∧ m.committeeID = cid ∧ ¬m.status = .Concluded)) = 1) ∧
    ((ran = false ∨ ¬st = .Concluded) →
      db' = (updateStatusWrite db mid cid st).1) ∧
    (ran = true → st = .Concluded →
      onSuccessConclude (updateStatusWrite db mid cid st).1 mid cid timer =
        some db') := by
  unfold changeMeetingStatusT at h
  split at h
  · cases h
  · split at h
    · cases h
    · split at h
      · rename_i hn
        split at h
        · rename_i hst
          split at h
          · rename_i db2 hsucc
            injection h with h1
            injection h1 with h2 h3
            subst h2
            subst h3
            refine ⟨⟨fun _ => hn, fun _ => rfl⟩, ?_, fun _ _ => hsucc⟩
            intro hd
            rcases hd with h1 | h2
            · cases h1
            · exact absurd hst h2
          · cases h
        · rename_i hst
          injection h with h1
          injection h1 with h2 h3
          subst h2
          subst h3
          exact ⟨⟨fun _ => hn, fun _ => rfl⟩, fun _ => rfl,
            fun _ hc => absurd hc hst⟩
      · rename_i hn
        injection h with h1
        injection h1 with h2 h3
        subst h2
        subst h3
        exact ⟨⟨fun hft => Bool.noConfusion hft, fun hcount => absurd hcount hn⟩,
          fun _ => rfl, fun hr => Bool.noConfusion hr⟩

/-- Claim C5: Lifecycle transition guards: the transition to `Running`
fails with `AlreadyRunning` exactly when the committee already has some
meeting in `Running` state, and the transition to `Concluded` fails with
`NewerConcluded` exactly when another meeting of the same committee with
a strictly later start time is already `Concluded`.  Both guards are
evaluated on the pre-state, before the conditional status write, and an
error result models the rolled-back transaction, so no state changes. -/
theorem changeMeetingStatus_guards (db : DB) (mid cid : Nat)
    (st : MeetingStatus) (timer : Nat) :
    (changeMeetingStatusT db mid cid st timer = .error .AlreadyRunning ↔
      st = .Running ∧ hasCommitteeRunningMeeting db cid = true) ∧
    (changeMeetingStatusT db mid cid st timer = .error .NewerConcluded ↔
      st = .Concluded ∧ hasConcludedMeetingNewerThan db mid = true) := by
  unfold changeMeetingStatusT
  by_cases h1 : st = .Running ∧ hasCommitteeRunningMeeting db cid = true
  · rw [if_pos h1]
    simp [h1.1, h1.2]
  · rw [if_neg h1]
    by_cases h2 : st = .Concluded ∧ hasConcludedMeetingNewerThan db mid = true
    · rw [if_pos h2]
      simp [h2.1, h2.2]
    · rw [if_neg h2]
      constructor
      · constructor
        · intro hx
          exfalso
          split at hx
          · split at hx
            · split at hx <;> simp at hx
            · simp at hx
          · simp at hx
        · intro hx
          exact absurd hx h1
      · constructor
        · intro hx
          exfalso
          split at hx
          · split at hx
            · split at hx <;> simp at hx
            · simp at hx
          · simp at hx
        · intro hx
          exact absurd hx h2

/-- Witness for C5 at concrete committees. -/
theorem changeMeetingStatus_guards_witness :
    changeMeetingStatusT dbRun 2 1 .Running 50 = .error .AlreadyRunning ∧
    changeMeetingStatusT dbNewer 1 1 .Concluded 50 = .error .NewerConcluded :=
  ⟨(changeMeetingStatus_guards dbRun 2 1 .Running 50).1.mpr ⟨rfl, by decide⟩,
   (changeMeetingStatus_guards dbNewer 1 1 .Concluded 50).2.mpr
     ⟨rfl, by decide⟩⟩

/-- Claim C6: Concluded meetings are immutable: a concluded meeting row
survives any `changeMeetingStatus` call unchanged (the conditional write
only matches rows whose status is not `Concluded`); repeating the
conclusion of an already concluded meeting is a no-op, not an error, and
reports that the side effect did not run; the side effect runs exactly
when the conditional write changed the one row; and deleting meetings by
id never removes a concluded meeting. -/
theorem concluded_immutable :
    (∀ db mid cid st timer db' ran,
      changeMeetingStatusT db mid cid st timer = .ok (db', ran) →
      ∀ m ∈ db.meetings, m.status = .Concluded → m ∈ db'.meetings) ∧
    (∀ db mid cid timer,
      (∀ m ∈ db.meetings, m.id = mid → m.committeeID = cid →
        m.status = .Concluded) →
      hasConcludedMeetingNewerThan db mid = false →
      changeMeetingStatusT db mid cid .Concluded timer = .ok (db, false)) ∧
    (∀ db mid cid st timer db' ran,
      changeMeetingStatusT db mid cid st timer = .ok (db', ran) →
      (ran = true ↔ (db.meetings.countP fun m =>
        decide (m.id = mid ∧ m.committeeID = cid ∧
          ¬m.status = .Concluded)) = 1)) ∧
    (∀ db cid ids, ∀ m ∈ db.meetings, m.status = .Concluded →
      m ∈ (deleteMeetingsByID db cid ids).meetings) := by
  refine ⟨?_, ?_, ?_, ?_⟩
  · intro db mid cid st timer db' ran h m hm hconc
    obtain inv := changeT_ok_inv db mid cid st timer db' ran h
    have hmeet : db'.meetings = (updateStatusWrite db mid cid st).1.meetings := by
      by_cases hst : st = .Concluded
      · by_cases hran : ran = true
        · exact onSuccess_meetings _ _ _ _ _ (inv.2.2 hran hst)
        · have hranf : ran = false := by revert hran; cases ran <;> simp
          rw [inv.2.1 (Or.inl hranf)]
      · rw [inv.2.1 (Or.inr hst)]
    rw [hmeet]
    show m ∈ db.meetings.map fun x =>
      if x.id = mid ∧ x.committeeID = cid ∧ ¬x.status = .Concluded then
        { x with status := st }
      else x
    have hfix : (if m.id = mid ∧ m.committeeID = cid ∧
        ¬m.status = .Concluded then { m with status := st } else m) = m :=
      if_neg (by simp [hconc])
    rw [← hfix]
    exact List.mem_map_of_mem _ hm
  · intro db mid cid timer hall hnewer
    unfold changeMeetingStatusT
    rw [if_neg (by simp), if_neg (by simp [hnewer])]
    have hcount : (db.meetings.countP fun m =>
        decide (m.id = mid ∧ m.committeeID = cid ∧
          ¬m.status = .Concluded)) = 0 := by
      rw [List.countP_eq_zero]
      intro m hm
      simp only [decide_eq_true_eq, not_and, Decidable.not_not]
      intro hid hcid
      exact hall m hm hid hcid
    rw [if_neg (by show ¬(db.meetings.countP _ = 1); omega)]
    have hfix : (updateStatusWrite db mid cid .Concluded).1 = db := by
      show { db with meetings := db.meetings.map fun m =>
          if m.id = mid ∧ m.committeeID = cid ∧ ¬m.status = .Concluded then
            { m with status := MeetingStatus.Concluded }
          else m } = db
      have hmap : (db.meetings.map fun m =>
          if m.id = mid ∧ m.committeeID = cid ∧ ¬m.status = .Concluded then
            { m with status := MeetingStatus.Concluded }
          else m) = db.meetings := by
        rw [List.map_congr_left (g := id) ?heach, List.map_id]
        case heach =>
          intro a ha
          refine if_neg ?_
          simp only [not_and, Decidable.not_not]
          intro hid hcid
          exact hall a ha hid hcid
      rw [hmap]
    rw [hfix]
  · intro db mid cid st timer db' ran h
    exact (changeT_ok_inv db mid cid st timer db' ran h).1
  · intro db cid ids m hm hconc
    exact List.mem_filter.mpr ⟨hm, by simp [hconc]⟩

/-- Witness for C6: repeating the conclusion of the already concluded
meeting 1 is a no-op, and deletion keeps the concluded meeting. -/
theorem concluded_immutable_witness :
    changeMeetingStatusT dbScen1 1 1 .Concluded 99 = .ok (dbScen1, false) ∧
    (⟨1, 1, false, .Concluded, 10, 20⟩ : Meeting) ∈
      (deleteMeetingsByID dbScen1 1 [1, 2]).meetings :=
  ⟨concluded_immutable.2.1 dbScen1 1 1 99 (by decide) (by decide),
   concluded_immutable.2.2.2 dbScen1 1 [1, 2] _ (by decide) rfl⟩

/-- The per-user engine decision is `none` for a persistent non-voter. -/
theorem userDelta_nonevoting (d : DB) (cid mid pmid T : Nat) (nick : String)
    (h : liveMemberStatus d nick cid = .NoneVoting) :
    userDelta d cid mid pmid T nick = none := by
  simp [userDelta, h]

/-- Claim C9: NonVoting exemption: a committee member whose live status is
`NoneVoting` is never touched by the engine — concluding (or otherwise
changing the status of) any meeting leaves that member's recorded status
history, and hence their live status, unchanged, regardless of their
attendance in the current and previous meetings. -/
theorem nonevoting_exempt (db : DB) (mid cid : Nat) (st : MeetingStatus)
    (timer : Nat) (db' : DB) (ran : Bool) (nick : String)
    (h : changeMeetingStatusT db mid cid st timer = .ok (db', ran))
    (hnv : liveMemberStatus db nick cid = .NoneVoting) :
    historyRows db' nick cid = historyRows db nick cid ∧
    liveMemberStatus db' nick cid = liveMemberStatus db nick cid := by
  suffices hsuff : historyRows db' nick cid = historyRows db nick cid by
    refine ⟨hsuff, ?_⟩
    unfold liveMemberStatus
    rw [hsuff]
  obtain inv := changeT_ok_inv db mid cid st timer db' ran h
  have hW : historyRows (updateStatusWrite db mid cid st).1 nick cid =
      historyRows db nick cid := rfl
  by_cases hst : st = .Concluded
  · by_cases hran : ran = true
    · have hsucc := inv.2.2 hran hst
      unfold onSuccessConclude at hsucc
      cases hgw : isGatheringMeeting (updateStatusWrite db mid cid st).1 mid with
      | none =>
        rw [hgw] at hsucc
        exact Option.noConfusion hsucc
      | some g =>
        rw [hgw] at hsucc
        cases g with
        | true =>
          injection hsucc with h1
          rw [← h1]
          exact hW
        | false =>
          cases hpm : previousMeetingId (updateStatusWrite db mid cid st).1 mid with
          | none =>
            rw [hpm] at hsucc
            injection hsucc with h1
            rw [← h1]
            exact hW
          | some prevMid =>
            rw [hpm] at hsucc
            cases hlm : loadMeeting (updateStatusWrite db mid cid st).1 mid cid with
            | none =>
              rw [hlm] at hsucc
              exact Option.noConfusion hsucc
            | some pm =>
              rw [hlm] at hsucc
              injection hsucc with h1
              rw [← h1]
              rw [uucs_historyRows_frame _ _ _ _ _ _ ?hnot]
              · exact hW
              case hnot =>
                intro p hp
                have hlive : liveMemberStatus (updateStatusWrite db mid cid st).1
                    nick cid = .NoneVoting := hnv
                rcases List.mem_append.mp hp with hpu | hpd
                · obtain ⟨n, hn, rfl⟩ := List.mem_map.mp hpu
                  have hdel := (List.mem_filter.mp hn).2
                  simp only [decide_eq_true_eq] at hdel
                  intro heq
                  have heqn : n = nick := heq
                  rw [heqn, userDelta_nonevoting _ _ _ _ _ _ hlive] at hdel
                  exact Option.noConfusion hdel
                · obtain ⟨n, hn, rfl⟩ := List.mem_map.mp hpd
                  have hdel := (List.mem_filter.mp hn).2
                  simp only [decide_eq_true_eq] at hdel
                  intro heq
                  have heqn : n = nick := heq
                  rw [heqn, userDelta_nonevoting _ _ _ _ _ _ hlive] at hdel
                  exact Option.noConfusion hdel
    · have hranf : ran = false := by revert hran; cases ran <;> simp
      rw [inv.2.1 (Or.inl hranf)]
      exact hW
  · rw [inv.2.1 (Or.inr hst)]
    exact hW

/-- Witness for C9: concluding meeting 2 leaves the persistent non-voter
`bob` untouched. -/
theorem nonevoting_exempt_witness :
    historyRows dbNV2 "bob" 1 = historyRows dbNV "bob" 1 ∧
    liveMemberStatus dbNV2 "bob" 1 = liveMemberStatus dbNV "bob" 1 :=
  nonevoting_exempt dbNV 2 1 .Concluded 40 dbNV2 true "bob" rfl rfl

/-- Claim C8: Engine trigger framing: the promotion/demotion computation
runs only on a successful transition to `Concluded` and only for
non-gathering meetings; its previous-meeting input is a concluded,
non-gathering meeting of the same committee with a strictly earlier start
time that is maximal among all such candidates (and it is `none` exactly
when no candidate exists); when the meeting is a gathering, or no
previous meeting exists, or the transition is not a conclusion, or the
conditional write changed nothing, the membership history is left
unchanged. -/
theorem engine_framing :
    (∀ db mid cid st timer db' ran,
      changeMeetingStatusT db mid cid st timer = .ok (db', ran) →
      List.Pairwise (fun a b : Meeting => a.id ≠ b.id) db.meetings →
      ((¬st = .Concluded → db'.memberHistory = db.memberHistory) ∧
       (isGatheringMeeting db mid = some true →
         db'.memberHistory = db.memberHistory) ∧
       (previousMeetingId db mid = none →
         db'.memberHistory = db.memberHistory) ∧
       (ran = false → db'.memberHistory = db.memberHistory))) ∧
    (∀ db mid pid, previousMeetingId db mid = some pid →
      ∃ m1, db.meetings.find? (fun m => decide (m.id = mid)) = some m1 ∧
        ∃ m2 ∈ db.meetings, m2.id = pid ∧
          m2.committeeID = m1.committeeID ∧ m2.gathering = false ∧
          m2.status = .Concluded ∧ m2.startTime < m1.startTime ∧
          ∀ c ∈ db.meetings, c.committeeID = m1.committeeID →
            c.gathering = false → c.status = .Concluded →
            c.startTime < m1.startTime → c.startTime ≤ m2.startTime) ∧
    (∀ db mid m1, previousMeetingId db mid = none →
      db.meetings.find? (fun m => decide (m.id = mid)) = some m1 →
      ∀ c ∈ db.meetings, ¬(c.committeeID = m1.committeeID ∧
        c.gathering = false ∧ c.status = .Concluded ∧
        c.startTime < m1.startTime)) := by
  refine ⟨?_, ?_, ?_⟩
  · intro db mid cid st timer db' ran h hpair
    obtain inv := changeT_ok_inv db mid cid st timer db' ran h
    have hW : (updateStatusWrite db mid cid st).1.memberHistory =
        db.memberHistory := rfl
    have hcase : ∀ db2, onSuccessConclude (updateStatusWrite db mid cid st).1
        mid cid timer = some db2 →
        (isGatheringMeeting db mid = some true ∨ previousMeetingId db mid = none) →
        db2.memberHistory = db.memberHistory := by
      intro db2 hsucc hside
      unfold onSuccessConclude at hsucc
      cases hgw : isGatheringMeeting (updateStatusWrite db mid cid st).1 mid with
      | none =>
        rw [hgw] at hsucc
        exact Option.noConfusion hsucc
      | some g =>
        rw [hgw] at hsucc
        cases g with
        | true =>
          injection hsucc with h1
          rw [← h1]
          exact hW
        | false =>
          rcases hside with hg | hprev
          · rw [isGatheringMeeting_updateStatusWrite] at hgw
            rw [hgw] at hg
            injection hg with hg1
            exact Bool.noConfusion hg1
          · have hpw := previousMeetingId_updateStatusWrite_none db mid cid st
              hpair hprev
            rw [hpw] at hsucc
            injection hsucc with h1
            rw [← h1]
            exact hW
    refine ⟨?_, ?_, ?_, ?_⟩
    · intro hst
      rw [inv.2.1 (Or.inr hst)]
      exact hW
    · intro hg
      by_cases hst : st = .Concluded
      · by_cases hran : ran = true
        · exact hcase db' (inv.2.2 hran hst) (Or.inl hg)
        · have hranf : ran = false := by revert hran; cases ran <;> simp
          rw [inv.2.1 (Or.inl hranf)]
          exact hW
      · rw [inv.2.1 (Or.inr hst)]
        exact hW
    · intro hprev
      by_cases hst : st = .Concluded
      · by_cases hran : ran = true
        · exact hcase db' (inv.2.2 hran hst) (Or.inr hprev)
        · have hranf : ran = false := by revert hran; cases ran <;> simp
          rw [inv.2.1 (Or.inl hranf)]
          exact hW
      · rw [inv.2.1 (Or.inr hst)]
        exact hW
    · intro hranf
      rw [inv.2.1 (Or.inl hranf)]
      exact hW
  · intro db mid pid h
    unfold previousMeetingId at h
    cases hf : db.meetings.find? (fun m => decide (m.id = mid)) with
    | none =>
      rw [hf] at h
      exact Option.noConfusion h
    | some m1 =>
      rw [hf] at h
      dsimp only at h
      cases hmb : maxByStart (db.meetings.filter (prevCandidate m1)) with
      | none =>
        rw [hmb] at h
        exact Option.noConfusion h
      | some m2 =>
        rw [hmb] at h
        simp only [Option.map_some'] at h
        injection h with h1
        obtain ⟨hm2mem, hm2max⟩ := maxByStart_mem_max _ _ hmb
        obtain ⟨hm2db, hm2cand⟩ := List.mem_filter.mp hm2mem
        simp only [prevCandidate, decide_eq_true_eq] at hm2cand
        refine ⟨m1, rfl, m2, hm2db, h1, hm2cand.1, hm2cand.2.1,
          hm2cand.2.2.1, hm2cand.2.2.2, ?_⟩
        intro c hc hcc hcg hcs hcstart
        exact hm2max c (List.mem_filter.mpr ⟨hc, by
          simp [prevCandidate, hcc, hcg, hcs, hcstart]⟩)
  · intro db mid m1 h hf c hc hcand
    unfold previousMeetingId at h
    rw [hf] at h
    dsimp only at h
    have hmax : maxByStart (db.meetings.filter (prevCandidate m1)) = none := by
      cases hmb : maxByStart (db.meetings.filter (prevCandidate m1)) with
      | none => rfl
      | some b =>
        rw [hmb] at h
        exact Option.noConfusion h
    have hfil := maxByStart_eq_none _ hmax
    have hmemf : c ∈ db.meetings.filter (prevCandidate m1) :=
      List.mem_filter.mpr ⟨hc, by
        simp [prevCandidate, hcand.1, hcand.2.1, hcand.2.2.1, hcand.2.2.2]⟩
    rw [hfil] at hmemf
    cases hmemf

/-- Witness for C8: concluding the first meeting (no predecessor) leaves
the membership history unchanged. -/
theorem engine_framing_witness :
    dbScen1.memberHistory = dbScen.memberHistory :=
  ((engine_framing.1 dbScen 1 1 .Concluded 20 dbScen1 true rfl
    (by decide)).2.2.1) (by decide)

/-- Claim C2: Demotion rule: a member is put on the downgrade list
(`Voting → Member`) only if they did NOT attend the current meeting AND
their live status is `Voting` AND they did NOT attend the previous
concluded non-gathering meeting either; hence a single absence is never
penalized, and without a previous meeting the conclusion changes no
membership history.  Concrete scenario: concluding meeting 1 of `dbScen`
(4 voting members, `u4` absent) causes no demotion; concluding meeting 2
(`u4` absent again, not excused, a voting member) demotes `u4` to
`Member` while the attendees stay `Voting`. -/
theorem demotion_rule :
    (∀ db cid mid prevMid T nick,
      userDelta db cid mid prevMid T nick = some .Member →
      meetingAttendees db mid nick = none ∧
      liveMemberStatus db nick cid = .Voting ∧
      meetingAttendees db prevMid nick = none) ∧
    (∀ db mid cid timer db' ran,
      changeMeetingStatusT db mid cid .Concluded timer = .ok (db', ran) →
      List.Pairwise (fun a b : Meeting => a.id ≠ b.id) db.meetings →
      previousMeetingId db mid = none →
      db'.memberHistory = db.memberHistory) ∧
    (changeMeetingStatusT dbScen 1 1 .Concluded 20 = .ok (dbScen1, true) ∧
     dbScen1.memberHistory = dbScen.memberHistory ∧
     changeMeetingStatusT dbScen1 2 1 .Concluded 40 = .ok (dbScen2, true) ∧
     liveMemberStatus dbScen1 "u4" 1 = .Voting ∧
     isUserExcused dbScen1 "u4" 1 40 = false ∧
     liveMemberStatus dbScen2 "u4" 1 = .Member ∧
     liveMemberStatus dbScen2 "u1" 1 = .Voting ∧
     liveMemberStatus dbScen2 "u2" 1 = .Voting ∧
     liveMemberStatus dbScen2 "u3" 1 = .Voting) := by
  refine ⟨?_, ?_, rfl, rfl, rfl, rfl, rfl, rfl, rfl, rfl, rfl⟩
  · intro db cid mid prevMid T nick h
    unfold userDelta at h
    split at h
    · exact absurd h (by simp)
    · split at h
      · exact absurd h (by simp)
      · split at h
        · rename_i hcurr
          split at h
          · rename_i hlive
            split at h
            · rename_i hprev
              split at h
              · exact absurd h (by simp)
              · split at h
                · exact absurd h (by simp)
                · split at h
                  · exact ⟨hcurr, hlive, hprev⟩
                  · exact absurd h (by simp)
            · exact absurd h (by simp)
          · exact absurd h (by simp)
        · rename_i votingCurr hcurr
          split at h
          · split at h
            · rename_i votingPrev hprev
              split at h
              · exact absurd h (by simp)
              · split at h
                · rename_i s hs
                  split at h
                  · exact absurd h (by simp)
                  · exact absurd h (by simp)
                · exact absurd h (by simp)
            · exact absurd h (by simp)
          · exact absurd h (by simp)
  · intro db mid cid timer db' ran h hpair hprev
    obtain inv := changeT_ok_inv db mid cid .Concluded timer db' ran h
    have hW : (updateStatusWrite db mid cid .Concluded).1.memberHistory =
        db.memberHistory := rfl
    by_cases hran : ran = true
    · have hsucc := inv.2.2 hran rfl
      unfold onSuccessConclude at hsucc
      cases hgw : isGatheringMeeting
          (updateStatusWrite db mid cid .Concluded).1 mid with
      | none =>
        rw [hgw] at hsucc
        exact Option.noConfusion hsucc
      | some g =>
        rw [hgw] at hsucc
        cases g with
        | true =>
          injection hsucc with h1
          rw [← h1]
          exact hW
        | false =>
          have hpw := previousMeetingId_updateStatusWrite_none db mid cid
            .Concluded hpair hprev
          rw [hpw] at hsucc
          injection hsucc with h1
          rw [← h1]
          exact hW
    · have hranf : ran = false := by revert hran; cases ran <;> simp
      rw [inv.2.1 (Or.inl hranf)]
      exact hW

/-- Witness for C2: `u4` is demoted only with the listed conditions in
place at the concrete scenario state. -/
theorem demotion_rule_witness :
    meetingAttendees dbScen1 2 "u4" = none ∧
    liveMemberStatus dbScen1 "u4" 1 = .Voting ∧
    meetingAttendees dbScen1 1 "u4" = none :=
  demotion_rule.1 dbScen1 1 2 1 40 "u4" (by decide)

/-- Claim C1 (code defect): The promotion path queries the membership
history at the stop time of the meeting loaded by `loadMeeting db mid cid`
— the CURRENT meeting (`LoadMeetingTx(ctx, tx, meetingID, committeeID)`
in the source, despite the surrounding `loadPrevMeeting` naming) — not at
the previous meeting's stop time.  At `dbPromo`, `alice` joined as
`Member` at time 25, strictly after the previous meeting's stop time 20,
so her status as of the previous meeting's end is "not a member"
(`userMemberStatusSince = none`) and the claimed rule forbids promoting
her; yet concluding meeting 2 promotes her to `Voting`, because the code
looks her status up at the current meeting's stop time 40. -/
theorem promotion_uses_current_stop_time :
    changeMeetingStatusT dbPromo 2 1 .Concluded 40 = .ok (dbPromo2, true) ∧
    previousMeetingId dbPromo 2 = some 1 ∧
    userMemberStatusSince dbPromo "alice" 1 20 = none ∧
    userMemberStatusSince dbPromo "alice" 1 40 = some .Member ∧
    liveMemberStatus dbPromo "alice" 1 = .Member ∧
    meetingAttendees dbPromo 2 "alice" = some false ∧
    meetingAttendees dbPromo 1 "alice" = some false ∧
    liveMemberStatus dbPromo2 "alice" 1 = .Voting :=
  ⟨rfl, rfl, rfl, rfl, rfl, rfl, rfl, rfl⟩

end OQC
